import Mathlib

/-!
Verification of the `utl::integral` / `utl::bit` modules of the UTL repository,
centred on the multi-word unsigned integer `BigUint<bits_to_fit>`
(`src/include/UTL/integral.hpp`) and the 8-bit rotate helpers
(`src/include/UTL/bit.hpp`).

A `BigUint` value is its word storage `std::array<uint32_t, words>`; we embed
it as a `List Nat` of the words, least-significant word first, with the
well-formedness predicate `wf` saying each word fits in 32 bits (automatic for
`uint32_t`).  Every operation below is translated line by line from the C++
source; machine-width truncation (`static_cast<word_type>`, shifts on
`uint32_t`/`uint64_t`) is written as explicit `% 2 ^ 32` / `% 2 ^ 64`.
-/

namespace UTL

/-- `word_bits` of `BigUint`: `numeric_limits<uint32_t>::digits`. -/
def word_bits : Nat := 32

/-- `carry_threshold` of `BigUint`: `uint32_t` max plus one, `2^32`. -/
def carry_threshold : Nat := 2 ^ 32

/-- Numeric value represented by a least-significant-first word list
(the abstraction function for the word storage). -/
def val : List Nat → Nat
  | [] => 0
  | w :: ws => w + carry_threshold * val ws

/-- Well-formed storage: every word fits in a `uint32_t`. -/
def wf (xs : List Nat) : Prop := ∀ w ∈ xs, w < carry_threshold

instance : DecidablePred wf := fun xs =>
  List.decidableBAll (fun w => w < carry_threshold) xs

/-- `math::reverse_idx(idx, size)`: `size - 1 - idx`. -/
def reverse_idx (idx size : Nat) : Nat := size - 1 - idx

/-- Loop of `bits::bit_width`; the first argument is fuel bounding the
number of halvings (structural recursion so the kernel can evaluate it; the
loop runs at most `v` times since `v` strictly shrinks while nonzero). -/
def bit_width_go : Nat → Nat → Nat
  | 0, _ => 0
  | fuel + 1, v => if v = 0 then 0 else bit_width_go fuel (v / 2) + 1

/-- `bits::bit_width(value)`: number of loop steps of
`while (value) ++count, value >>= 1`. -/
def bit_width (v : Nat) : Nat := bit_width_go v v

/-- `bits::get(value, bit)`: `(value >> bit) & 1`, read as a boolean. -/
def bits_get (v bit : Nat) : Bool := (v >>> bit) &&& 1 != 0

/-- `bits::set(value, bit, state)`: `value |= (T(state) << bit)`. -/
def bits_set (v bit : Nat) (state : Bool) : Nat :=
  v ||| ((if state then 1 else 0) <<< bit)

/-- `BigUint::word(idx)` (reads; out-of-range reads never occur in the
claims, `0` is the `getD` default). -/
def word (xs : List Nat) (idx : Nat) : Nat := xs.getD idx 0

/-- `BigUint::bit_get(bit)`. -/
def bit_get (xs : List Nat) (bit : Nat) : Bool :=
  bits_get (word xs (bit / word_bits)) (bit % word_bits)

/-- `BigUint::bit_set(bit, value)`. -/
def bit_set (xs : List Nat) (bit : Nat) (value : Bool) : List Nat :=
  xs.set (bit / word_bits) (bits_set (word xs (bit / word_bits)) (bit % word_bits) value)

/-- Loop of `BigUint::significant_bits()`: scan `i = 0, 1, ...`, look at
word `reverse_idx(i, words)`, and return `i * word_bits + bit_width` at the
first nonzero word (exactly as the source writes it, with the loop counter
`i`, not the word index, in the multiplication).  The fuel argument bounds
the iterations (the loop runs at most `words` times) and makes the
recursion structural. -/
def significant_bits_go (xs : List Nat) : Nat → Nat → Nat
  | 0, _ => 0
  | fuel + 1, i =>
    if i < xs.length then
      let reverse_i := reverse_idx i xs.length
      let word_sig_bits := bit_width (word xs reverse_i)
      if word_sig_bits ≠ 0 then i * word_bits + word_sig_bits
      else significant_bits_go xs fuel (i + 1)
    else 0

/-- `BigUint::significant_bits()`. -/
def significant_bits (xs : List Nat) : Nat := significant_bits_go xs xs.length 0

/-- Loop of `BigUint::significant_words()`, fueled like `significant_bits_go`. -/
def significant_words_go (xs : List Nat) : Nat → Nat → Nat
  | 0, _ => 0
  | fuel + 1, i =>
    if i < xs.length then
      let reverse_i := reverse_idx i xs.length
      if word xs reverse_i ≠ 0 then reverse_i + 1
      else significant_words_go xs fuel (i + 1)
    else 0

/-- `BigUint::significant_words()`. -/
def significant_words (xs : List Nat) : Nat := significant_words_go xs xs.length 0

/-- `BigUint::operator bool()`: true at the first nonzero word. -/
def toBool : List Nat → Bool
  | [] => false
  | x :: xs => if x ≠ 0 then true else toBool xs

/-- `BigUint::operator==`: return `false` at the first differing word. -/
def beq : List Nat → List Nat → Bool
  | x :: xs, y :: ys => if x ≠ y then false else beq xs ys
  | _, _ => true

/-- `BigUint::operator<`: scans words from index 0 (least-significant word)
upward and returns `true` at the first index with `this->word(i) < other.word(i)`. -/
def lt : List Nat → List Nat → Bool
  | x :: xs, y :: ys => if x < y then true else lt xs ys
  | _, _ => false

/-- `BigUint::operator<=`: scans words from index 0 (least-significant word)
upward and returns `true` at the first index with `this->word(i) <= other.word(i)`. -/
def le : List Nat → List Nat → Bool
  | x :: xs, y :: ys => if x ≤ y then true else le xs ys
  | _, _ => false

/-- `BigUint::operator>=`: `!(*this < other)`. -/
def ge (xs ys : List Nat) : Bool := ! lt xs ys

/-- `BigUint::operator>`: `!(*this <= other)`. -/
def gt (xs ys : List Nat) : Bool := ! le xs ys

/-- `BigUint::operator!=`: `!(*this == other)`. -/
def bne (xs ys : List Nat) : Bool := ! beq xs ys

/-- `BigUint::BigUint(wide_type number)`: word `i` is
`static_cast<word_type>(number >> (word_bits * i))` for
`i < extent = min(wide_bits / word_bits, words)`, other words stay zero
(`number` itself is a `uint64_t`, hence the `% 2 ^ 64`). -/
def ofWide (n : Nat) (number : Nat) : List Nat :=
  let number := number % 2 ^ 64
  List.ofFn fun i : Fin n =>
    if (i : Nat) < min (64 / word_bits) n
    then (number >>> (word_bits * (i : Nat))) % carry_threshold
    else 0

/-- `BigUint::bitwise_lshift(x, shift)`, including the two early returns
(`shift == 0` is a no-op, `shift >= bits` zeroes the value) and the
libstdc++-style word-moving loops of the general case. -/
def bitwise_lshift (x : List Nat) (shift : Nat) : List Nat :=
  if shift = 0 then x
  else if shift ≥ word_bits * x.length then List.replicate x.length 0
  else
    let wshift := shift / word_bits
    let offset := shift % word_bits
    if offset = 0 then
      List.ofFn fun i : Fin x.length =>
        if wshift ≤ (i : Nat) then word x ((i : Nat) - wshift) else 0
    else
      let suboffset := word_bits - offset
      List.ofFn fun i : Fin x.length =>
        if wshift < (i : Nat) then
          Nat.lor ((word x ((i : Nat) - wshift) <<< offset) % carry_threshold)
                  (word x ((i : Nat) - wshift - 1) >>> suboffset)
        else if (i : Nat) = wshift then (word x 0 <<< offset) % carry_threshold
        else 0

/-- `BigUint::bitwise_rshift(x, shift)`, with both early returns and the
general word-moving loops. -/
def bitwise_rshift (x : List Nat) (shift : Nat) : List Nat :=
  if shift = 0 then x
  else if shift ≥ word_bits * x.length then List.replicate x.length 0
  else
    let wshift := shift / word_bits
    let offset := shift % word_bits
    let limit := x.length - wshift - 1
    if offset = 0 then
      List.ofFn fun i : Fin x.length =>
        if (i : Nat) ≤ limit then word x ((i : Nat) + wshift) else 0
    else
      let suboffset := word_bits - offset
      List.ofFn fun i : Fin x.length =>
        if (i : Nat) < limit then
          Nat.lor (word x ((i : Nat) + wshift) >>> offset)
                  ((word x ((i : Nat) + wshift + 1) <<< suboffset) % carry_threshold)
        else if (i : Nat) = limit then word x (x.length - 1) >>> offset
        else 0

/-- `BigUint::bitwise_and`. -/
def bitwise_and (x y : List Nat) : List Nat :=
  List.ofFn fun i : Fin x.length => Nat.land (word x i) (word y i)

/-- `BigUint::bitwise_or`. -/
def bitwise_or (x y : List Nat) : List Nat :=
  List.ofFn fun i : Fin x.length => Nat.lor (word x i) (word y i)

/-- `BigUint::bitwise_xor`. -/
def bitwise_xor (x y : List Nat) : List Nat :=
  List.ofFn fun i : Fin x.length => Nat.xor (word x i) (word y i)

/-- `BigUint::bitwise_flip`: `~` on each `uint32_t` word, i.e. xor with the
all-ones 32-bit pattern. -/
def bitwise_flip (x : List Nat) : List Nat :=
  x.map fun w => w ^^^ (carry_threshold - 1)

/-- One step of `BigUint::add`: `carry[i] += x.word(i) + y.word(i)`, the
carry-over test against `carry_threshold`, and
`x.word(i) = static_cast<word_type>(carry[i])`.  `c` is the carry flowing
into position `i` (0 or 1 coming from the previous step). -/
def add_loop : List Nat → List Nat → Nat → List Nat
  | x :: xs, y :: ys, c =>
    let t := c + x + y
    if t ≥ carry_threshold
    then (t - carry_threshold) % carry_threshold :: add_loop xs ys 1
    else t % carry_threshold :: add_loop xs ys 0
  | _, _, _ => []

/-- `BigUint::add(x, y)` (the `words + 1`-th carry slot is exactly the final
carry the loop drops). -/
def add (x y : List Nat) : List Nat := add_loop x y 0

/-- `BigUint::increment(x)`: fast single-word path when
`x.word(0) < carry_threshold - 2`, otherwise `add(x, self(1))`. -/
def increment (xs : List Nat) : List Nat :=
  match xs with
  | x :: rest =>
    if x < carry_threshold - 2 then (x + 1) :: rest
    else add xs (ofWide xs.length 1)
  | [] => []

/-- `BigUint::substract(x, y)` (source spelling): `temp = ~y; ++temp;
add(x, temp)`, i.e. `x + (~y + 1)`. -/
def substract (x y : List Nat) : List Nat :=
  add x (increment (bitwise_flip y))

/-- One step of `BigUint::short_multiply`: `carry[i] += x.word(i) * y`,
`carry[i+1] += carry[i] >> word_bits`, `x.word(i) = cast(carry[i])`. -/
def short_multiply_loop : List Nat → Nat → Nat → List Nat
  | x :: xs, y, c =>
    let t := c + x * y
    t % carry_threshold :: short_multiply_loop xs y (t >>> word_bits)
  | [], _, _ => []

/-- `BigUint::short_multiply(x, y)` for a single-word multiplier. -/
def short_multiply (x : List Nat) (y : Nat) : List Nat :=
  short_multiply_loop x y 0

/-- Loop of `BigUint::long_multiply`: for each significant word `digit` of
`y`, accumulate `(x * y.word(digit)) << (digit * word_bits)` into `res`
(fuel bounds the `significant_words y` iterations). -/
def long_multiply_go (x y : List Nat) : Nat → Nat → List Nat → List Nat
  | 0, _, res => res
  | fuel + 1, digit, res =>
    if digit < significant_words y then
      let sum_for_digit := bitwise_lshift (short_multiply x (word y digit)) (digit * word_bits)
      long_multiply_go x y fuel (digit + 1) (add res sum_for_digit)
    else res

/-- `BigUint::long_multiply(x, y)` (`res` starts as the all-zero value). -/
def long_multiply (x y : List Nat) : List Nat :=
  long_multiply_go x y (significant_words y) 0 (List.replicate x.length 0)

/-- `BigUint::multiply(x, y)`: dispatch on the significant word counts. -/
def multiply (x y : List Nat) : List Nat :=
  let x_sig_words := significant_words x
  let y_sig_words := significant_words y
  if x_sig_words ≥ y_sig_words then
    if y_sig_words ≤ 1 then short_multiply x (word y 0) else long_multiply x y
  else
    if x_sig_words ≤ 1 then short_multiply y (word x 0) else long_multiply y x

/-- Loop of `BigUint::short_divide`, processing words most-significant first
(the input list here is already reversed).  Each step computes
`carry = (carry << word_bits) | w`, writes `quot.word = cast(carry / y)` and
`rem.word = cast(carry % y)`, and passes `rem.word` on as the next carry —
note the remainder words written at every position, exactly as the source
does. -/
def short_divide_loop : List Nat → Nat → Nat → List Nat × List Nat
  | w :: ws, y, c =>
    let cy := Nat.lor ((c <<< word_bits) % 2 ^ 64) w
    let q := (cy / y) % carry_threshold
    let r := (cy % y) % carry_threshold
    let rest := short_divide_loop ws y r
    (q :: rest.1, r :: rest.2)
  | [], _, _ => ([], [])

/-- `BigUint::short_divide(quot, rem, x, y)` for a one-word divisor. -/
def short_divide (x : List Nat) (y : Nat) : List Nat × List Nat :=
  let rev := short_divide_loop x.reverse y 0
  (rev.1.reverse, rev.2.reverse)

/-- Loop of `BigUint::long_divide`: restoring binary long division over the
`significant_bits(x)` top bits, using the `operator>=` comparison of the
source (`!(rem < y)`) to decide the subtraction (fuel bounds the `sig_bits`
iterations). -/
def long_divide_go (x y : List Nat) (sig_bits : Nat) : Nat → Nat →
    List Nat × List Nat → List Nat × List Nat
  | 0, _, qr => qr
  | fuel + 1, i, qr =>
    if i < sig_bits then
      let rem1 := bitwise_lshift qr.2 1
      let rem2 := bit_set rem1 0 (bit_get x (reverse_idx i sig_bits))
      if ge rem2 y then
        long_divide_go x y sig_bits fuel (i + 1)
          (bit_set qr.1 (reverse_idx i sig_bits) true, substract rem2 y)
      else
        long_divide_go x y sig_bits fuel (i + 1) (qr.1, rem2)
    else qr

/-- `BigUint::long_divide(quot, rem, x, y)` (quotient and remainder start
out all-zero). -/
def long_divide (x y : List Nat) : List Nat × List Nat :=
  long_divide_go x y (significant_bits x) (significant_bits x) 0
    (List.replicate x.length 0, List.replicate x.length 0)

/-- `BigUint::divide(quot, rem, x, y)`: the dispatcher.  In the fast path
both outputs are the zero value of `operator/=` with word 0 overwritten by
the native `uint32_t` quotient / remainder. -/
def divide (x y : List Nat) : List Nat × List Nat :=
  let x_sig_words := significant_words x
  let y_sig_words := significant_words y
  if x_sig_words ≤ 1 ∧ y_sig_words ≤ 1 then
    ((List.replicate x.length 0).set 0 (word x 0 / word y 0),
     (List.replicate x.length 0).set 0 (word x 0 % word y 0))
  else if y_sig_words = 1 then short_divide x (word y 0)
  else long_divide x y

/-- `BigUint::operator/=` keeps the quotient of `divide`. -/
def op_div (x y : List Nat) : List Nat := (divide x y).1

/-- `BigUint::operator%=` keeps the remainder of `divide`. -/
def op_mod (x y : List Nat) : List Nat := (divide x y).2

/-- Outcome of a division call: a normal result, a failed debug assertion
(`assert(...)` with a false condition), or native undefined behavior (a
hardware `/` or `%` with zero divisor that no assertion guarded). -/
inductive DivOutcome where
  | ok : List Nat → List Nat → DivOutcome
  | assertFail : DivOutcome
  | ub : DivOutcome
deriving DecidableEq

/-- `BigUint::divide` with contract violations made visible.  The dispatcher's
fast path runs `x.word(0) / y.word(0)` with no assertion, so a zero divisor
there is native division by zero (`ub`); `short_divide` contains no assertion
either, its first `carry / y` is the native division; `long_divide` opens
with `assert(y)` (`operator bool`), the only assertion on any division path. -/
def divide_outcome (x y : List Nat) : DivOutcome :=
  let x_sig_words := significant_words x
  let y_sig_words := significant_words y
  if x_sig_words ≤ 1 ∧ y_sig_words ≤ 1 then
    if word y 0 = 0 then .ub
    else .ok ((List.replicate x.length 0).set 0 (word x 0 / word y 0))
            ((List.replicate x.length 0).set 0 (word x 0 % word y 0))
  else if y_sig_words = 1 then
    if word y 0 = 0 then .ub
    else .ok (short_divide x (word y 0)).1 (short_divide x (word y 0)).2
  else
    if toBool y = false then .assertFail
    else .ok (long_divide x y).1 (long_divide x y).2

/-- `BigUint::BigUint(const char (&str)[chars])` for a type of `words` words
and `size = bits_to_fit` requested bits: bit `reverse_idx(i, size)` is set
from character `i` (`'0'` gives a 0-bit, anything else a 1-bit), over the
default all-zero storage. -/
def ofLiteral (words size : Nat) (str : String) : List Nat :=
  (List.range size).foldl
    (fun acc i => bit_set acc (reverse_idx i size) (str.data.getD i '0' != '0'))
    (List.replicate words 0)

/-- `BigUint::to_string<false>()` (non-pretty): `"["`, then every one of the
`bits = words * word_bits` storage bits most-significant first as `'0'`/`'1'`,
then `"]"`.  The bracket appends sit outside the `if constexpr (prettify)`
guards, so they are emitted in both modes. -/
def to_string (xs : List Nat) : String :=
  "[" ++ String.join ((List.range (word_bits * xs.length)).map fun i =>
    if bit_get xs (reverse_idx i (word_bits * xs.length)) then "1" else "0") ++ "]"

/-- `bits::rotl<uint8_t>(value, shift)` from `integral.hpp`:
`(value << shift) | (value >> (digits - shift))`; the operands promote to
`int`, and the result converts back to `uint8_t` on return (`% 2 ^ 8`). -/
def rotl_u8 (value shift : Nat) : Nat :=
  (Nat.lor (value <<< shift) (value >>> (8 - shift))) % 2 ^ 8

/-- `bits::rotr<uint8_t>(value, shift)` from `integral.hpp`:
`(value << (digits - shift)) | (value >> shift)`, converted back to
`uint8_t` on return. -/
def rotr_u8 (value shift : Nat) : Nat :=
  (Nat.lor (value <<< (8 - shift)) (value >>> shift)) % 2 ^ 8

/-- `bit::lshift<uint8_t>(value, shift)` from `bit.hpp`:
`static_cast<uint8_t>(static_cast<unsigned>(value) << shift)`. -/
def bit_lshift_u8 (value shift : Nat) : Nat := (value <<< shift) % 2 ^ 8

/-- `bit::rshift<uint8_t>(value, shift)` from `bit.hpp`. -/
def bit_rshift_u8 (value shift : Nat) : Nat := (value >>> shift) % 2 ^ 8

/-- `bit::rotl<uint8_t>(value, shift)` from `bit.hpp`:
`lshift(value, shift) | rshift(value, digits - shift)`, converted back to
`uint8_t` on return. -/
def bit_rotl_u8 (value shift : Nat) : Nat :=
  (Nat.lor (bit_lshift_u8 value shift) (bit_rshift_u8 value (8 - shift))) % 2 ^ 8

/-- `bit::rotr<uint8_t>(value, shift)` from `bit.hpp`. -/
def bit_rotr_u8 (value shift : Nat) : Nat :=
  (Nat.lor (bit_lshift_u8 value (8 - shift)) (bit_rshift_u8 value shift)) % 2 ^ 8

/-- Modelled from the spec: the strict lexicographic comparison "over the
least-significant-first word order" that §4.4 says the implemented
`operator<` computes — walk the word sequences from index 0 and decide at
the first *differing* word. -/
def spec_lex_lt : List Nat → List Nat → Bool
  | x :: xs, y :: ys =>
    if x < y then true else if y < x then false else spec_lex_lt xs ys
  | _, _ => false

/-- Modelled from the spec: the non-strict lexicographic comparison over the
least-significant-first word order (`operator<=` per the spec's reading). -/
def spec_lex_le : List Nat → List Nat → Bool
  | x :: xs, y :: ys =>
    if x < y then true else if y < x then false else spec_lex_le xs ys
  | [], _ => true
  | _, [] => false

/-!
Frame model for the non-assigning operators (claim C10).  Each such operator
of the source takes `*this` by const and `other` by const reference, copies
`*this` into a fresh value (`self(*this)`), runs the compound-assignment
implementation on the copy, and returns it.  We model a call as returning
the result *together with the post-call states of the two operand objects*
(const-qualified access cannot write, so an operand's post-state is the
value it was read as). -/

/-- `operator~`: `self res = *this; bitwise_flip(res); return res`. -/
def call_flip (x : List Nat) : List Nat × List Nat :=
  let res := bitwise_flip x
  (res, x)

/-- `operator<<`: `return self(*this) <<= shift`. -/
def call_lshift (x : List Nat) (shift : Nat) : List Nat × List Nat :=
  let res := bitwise_lshift x shift
  (res, x)

/-- `operator>>`: `return self(*this) >>= shift`. -/
def call_rshift (x : List Nat) (shift : Nat) : List Nat × List Nat :=
  let res := bitwise_rshift x shift
  (res, x)

/-- `operator&`: `return self(*this) &= other`. -/
def call_and (x y : List Nat) : List Nat × List Nat × List Nat :=
  let res := bitwise_and x y
  (res, x, y)

/-- `operator|`. -/
def call_or (x y : List Nat) : List Nat × List Nat × List Nat :=
  let res := bitwise_or x y
  (res, x, y)

/-- `operator^`. -/
def call_xor (x y : List Nat) : List Nat × List Nat × List Nat :=
  let res := bitwise_xor x y
  (res, x, y)

/-- `operator+`: `return self(*this) += other`. -/
def call_add (x y : List Nat) : List Nat × List Nat × List Nat :=
  let res := add x y
  (res, x, y)

/-- `operator-`. -/
def call_sub (x y : List Nat) : List Nat × List Nat × List Nat :=
  let res := substract x y
  (res, x, y)

/-- `operator*`. -/
def call_mul (x y : List Nat) : List Nat × List Nat × List Nat :=
  let res := multiply x y
  (res, x, y)

/-- `operator/`: `self q{}, r{}; divide(q, r, copy, other)` keeps `q`. -/
def call_div (x y : List Nat) : List Nat × List Nat × List Nat :=
  let res := op_div x y
  (res, x, y)

/-- `operator%`. -/
def call_mod (x y : List Nat) : List Nat × List Nat × List Nat :=
  let res := op_mod x y
  (res, x, y)

/-- `operator==` (a const member on a const reference). -/
def call_eq (x y : List Nat) : Bool × List Nat × List Nat := (beq x y, x, y)

/-- `operator!=`. -/
def call_ne (x y : List Nat) : Bool × List Nat × List Nat := (bne x y, x, y)

/-- `operator<`. -/
def call_lt (x y : List Nat) : Bool × List Nat × List Nat := (lt x y, x, y)

/-- `operator<=`. -/
def call_le (x y : List Nat) : Bool × List Nat × List Nat := (le x y, x, y)

/-- `operator>`. -/
def call_gt (x y : List Nat) : Bool × List Nat × List Nat := (gt x y, x, y)

/-- `operator>=`. -/
def call_ge (x y : List Nat) : Bool × List Nat × List Nat := (ge x y, x, y)

/-! ### Helper lemmas -/

theorem ct_pos : 0 < carry_threshold := by norm_num [carry_threshold]

theorem ct_pow (n : Nat) : carry_threshold ^ n = 2 ^ (word_bits * n) := by
  rw [carry_threshold, word_bits, ← pow_mul]

theorem word_cons_zero (x : Nat) (xs : List Nat) : word (x :: xs) 0 = x := rfl

theorem word_cons_succ (x : Nat) (xs : List Nat) (i : Nat) :
    word (x :: xs) (i + 1) = word xs i := rfl

theorem word_replicate_zero (n j : Nat) : word (List.replicate n (0 : Nat)) j = 0 := by
  simp only [word, List.getD_eq_getElem?_getD, List.getElem?_replicate]
  split <;> rfl

theorem wf_cons {x : Nat} {xs : List Nat} (h : wf (x :: xs)) :
    x < carry_threshold ∧ wf xs :=
  ⟨h x (List.mem_cons_self x xs), fun w hw => h w (List.mem_cons_of_mem _ hw)⟩

theorem val_lt {xs : List Nat} (h : wf xs) : val xs < carry_threshold ^ xs.length := by
  induction xs with
  | nil => simp [val]
  | cons x xs ih =>
    obtain ⟨hx, hxs⟩ := wf_cons h
    have hv := ih hxs
    have hBM : carry_threshold * carry_threshold ^ xs.length
        = carry_threshold ^ (xs.length + 1) := by rw [pow_succ]; ring
    have hmul : carry_threshold * val xs + carry_threshold
        ≤ carry_threshold * carry_threshold ^ xs.length := by
      calc carry_threshold * val xs + carry_threshold
          = carry_threshold * (val xs + 1) := by ring
        _ ≤ carry_threshold * carry_threshold ^ xs.length :=
            Nat.mul_le_mul_left carry_threshold (by omega)
    simp only [val, List.length_cons]
    omega

theorem val_inj : ∀ xs ys : List Nat, xs.length = ys.length → wf xs → wf ys →
    val xs = val ys → xs = ys := by
  intro xs
  induction xs with
  | nil => intro ys hlen _ _ _; cases ys with
    | nil => rfl
    | cons y ys => simp at hlen
  | cons x xs ih =>
    intro ys hlen hwx hwy hval
    cases ys with
    | nil => simp at hlen
    | cons y ys =>
      obtain ⟨hx, hxs⟩ := wf_cons hwx
      obtain ⟨hy, hys⟩ := wf_cons hwy
      simp only [val] at hval
      have hxy : x = y := by
        have h1 := congrArg (fun t => t % carry_threshold) hval
        simpa [Nat.add_mul_mod_self_left, Nat.mod_eq_of_lt hx, Nat.mod_eq_of_lt hy] using h1
      subst hxy
      have htail : val xs = val ys :=
        Nat.eq_of_mul_eq_mul_left ct_pos (by omega)
      rw [ih ys (by simpa using hlen) hxs hys htail]

theorem val_replicate_zero (n : Nat) : val (List.replicate n (0 : Nat)) = 0 := by
  induction n with
  | zero => rfl
  | succ n ih => simp [List.replicate_succ, val, ih]

theorem wf_replicate_zero (n : Nat) : wf (List.replicate n (0 : Nat)) := by
  intro w hw
  have := List.eq_of_mem_replicate hw
  subst this
  exact ct_pos

theorem val_replicate_allones (n : Nat) :
    val (List.replicate n (carry_threshold - 1)) = carry_threshold ^ n - 1 := by
  induction n with
  | zero => rfl
  | succ n ih =>
    have hM : 0 < carry_threshold ^ n := Nat.pos_pow_of_pos n ct_pos
    have hBM : carry_threshold * carry_threshold ^ n
        = carry_threshold ^ (n + 1) := by rw [pow_succ]; ring
    have hexp : carry_threshold * (carry_threshold ^ n - 1) + carry_threshold
        = carry_threshold * carry_threshold ^ n := by
      rw [← Nat.mul_succ]
      congr 1
      omega
    simp only [List.replicate_succ, val, ih]
    have := ct_pos
    omega

theorem wf_replicate_allones (n : Nat) : wf (List.replicate n (carry_threshold - 1)) := by
  intro w hw
  have := List.eq_of_mem_replicate hw
  subst this
  have := ct_pos
  omega

theorem add_loop_length : ∀ (xs ys : List Nat) (c : Nat),
    (add_loop xs ys c).length = min xs.length ys.length := by
  intro xs
  induction xs with
  | nil => intro ys c; cases ys <;> simp [add_loop]
  | cons x xs ih =>
    intro ys c
    cases ys with
    | nil => simp [add_loop]
    | cons y ys =>
      rw [add_loop]
      split <;> simp [ih] <;> omega

theorem add_loop_wf : ∀ (xs ys : List Nat) (c : Nat), wf (add_loop xs ys c) := by
  intro xs
  induction xs with
  | nil => intro ys c; cases ys <;> simp [add_loop, wf]
  | cons x xs ih =>
    intro ys c
    cases ys with
    | nil => simp [add_loop, wf]
    | cons y ys =>
      rw [add_loop]
      have hB := ct_pos
      split <;> intro w hw <;> rcases List.mem_cons.mp hw with h | h
      · rw [h]; exact Nat.mod_lt _ hB
      · exact ih ys 1 w h
      · rw [h]; exact Nat.mod_lt _ hB
      · exact ih ys 0 w h

/-- Splitting off the head of a base-`B` cons under the combined modulus. -/
theorem mod_cons_arith (B M a s : Nat) (hB : 0 < B) (ha : a < B) :
    a + B * (s % M) = (a + B * s) % (B * M) := by
  rcases Nat.eq_zero_or_pos M with hM | hM
  · simp [hM]
  · conv_rhs => rw [← Nat.div_add_mod s M]
    rw [show a + B * (M * (s / M) + s % M) = a + B * (s % M) + s / M * (B * M) by ring]
    rw [Nat.add_mul_mod_self_right]
    have h1 : s % M < M := Nat.mod_lt _ hM
    have h2 : B * (s % M) + B ≤ B * M := by
      calc B * (s % M) + B = B * (s % M + 1) := by ring
        _ ≤ B * M := Nat.mul_le_mul_left B (by omega)
    exact (Nat.mod_eq_of_lt (by omega)).symm

theorem add_loop_val : ∀ (xs ys : List Nat) (c : Nat), xs.length = ys.length →
    wf xs → wf ys → c ≤ 1 →
    val (add_loop xs ys c) = (val xs + val ys + c) % carry_threshold ^ xs.length := by
  intro xs
  induction xs with
  | nil =>
    intro ys c hlen _ _ _
    cases ys with
    | nil => simp [add_loop, val, Nat.mod_one]
    | cons y ys => simp at hlen
  | cons x xs ih =>
    intro ys c hlen hwx hwy hc
    cases ys with
    | nil => simp at hlen
    | cons y ys =>
      obtain ⟨hx, hxs⟩ := wf_cons hwx
      obtain ⟨hy, hys⟩ := wf_cons hwy
      have hlen' : xs.length = ys.length := by simpa using hlen
      have hB := ct_pos
      have hpow : carry_threshold * carry_threshold ^ xs.length
          = carry_threshold ^ (x :: xs).length := by
        simp only [List.length_cons]
        rw [pow_succ]; ring
      rw [add_loop]
      split
      case isTrue h =>
        have hsub : c + x + y - carry_threshold < carry_threshold := by omega
        simp only [val, List.length_cons]
        rw [ih ys 1 hlen' hxs hys le_rfl, Nat.mod_eq_of_lt hsub,
          mod_cons_arith carry_threshold (carry_threshold ^ xs.length) _ _ hB hsub,
          show carry_threshold * carry_threshold ^ xs.length
            = carry_threshold ^ (xs.length + 1) by rw [pow_succ]; ring]
        have hdist : carry_threshold * (val xs + val ys + 1)
            = carry_threshold * val xs + carry_threshold * val ys + carry_threshold := by
          ring
        have hbase : c + x + y - carry_threshold + carry_threshold * (val xs + val ys + 1)
            = x + carry_threshold * val xs + (y + carry_threshold * val ys) + c := by
          omega
        rw [hbase]
      case isFalse h =>
        have hlt : c + x + y < carry_threshold := by omega
        simp only [val, List.length_cons]
        rw [ih ys 0 hlen' hxs hys (by omega), Nat.mod_eq_of_lt hlt,
          mod_cons_arith carry_threshold (carry_threshold ^ xs.length) _ _ hB hlt,
          show carry_threshold * carry_threshold ^ xs.length
            = carry_threshold ^ (xs.length + 1) by rw [pow_succ]; ring]
        have hdist : carry_threshold * (val xs + val ys + 0)
            = carry_threshold * val xs + carry_threshold * val ys := by ring
        have hbase : c + x + y + carry_threshold * (val xs + val ys + 0)
            = x + carry_threshold * val xs + (y + carry_threshold * val ys) + c := by
          omega
        rw [hbase]

/-- Xor with the all-ones pattern below `2 ^ n` is subtraction from it
(the arithmetic content of a machine-word `~`). -/
theorem xor_two_pow_sub_one (n : Nat) : ∀ w, w < 2 ^ n →
    w ^^^ (2 ^ n - 1) = 2 ^ n - 1 - w := by
  induction n with
  | zero =>
    intro w hw
    have : w = 0 := by omega
    subst this
    rfl
  | succ n ih =>
    intro w hw
    have h2 : (2 : Nat) ^ (n + 1) = 2 * 2 ^ n := by rw [pow_succ]; ring
    have hpos : 0 < 2 ^ n := Nat.pos_pow_of_pos n (by omega)
    have hhalf : w / 2 < 2 ^ n := by omega
    have hx := Nat.div_add_mod (w ^^^ (2 ^ (n + 1) - 1)) 2
    rw [Nat.xor_div_two] at hx
    have hm : (2 ^ (n + 1) - 1) / 2 = 2 ^ n - 1 := by omega
    rw [hm, ih (w / 2) hhalf] at hx
    have hmod : (w ^^^ (2 ^ (n + 1) - 1)) % 2 = (w + (2 ^ (n + 1) - 1)) % 2 :=
      Nat.xor_mod_two_eq
    omega

theorem bitwise_flip_length (xs : List Nat) :
    (bitwise_flip xs).length = xs.length := by
  simp [bitwise_flip]

theorem bitwise_flip_wf {xs : List Nat} (h : wf xs) : wf (bitwise_flip xs) := by
  intro w hw
  simp only [bitwise_flip, List.mem_map] at hw
  obtain ⟨a, ha, rfl⟩ := hw
  have : carry_threshold - 1 < carry_threshold := by have := ct_pos; omega
  calc a ^^^ (carry_threshold - 1) < 2 ^ 32 :=
        Nat.xor_lt_two_pow (h a ha) this
    _ = carry_threshold := rfl

theorem bitwise_flip_val : ∀ xs : List Nat, wf xs →
    val (bitwise_flip xs) = carry_threshold ^ xs.length - 1 - val xs := by
  intro xs
  induction xs with
  | nil => intro _; rfl
  | cons x xs ih =>
    intro h
    obtain ⟨hx, hxs⟩ := wf_cons h
    have hword : x ^^^ (carry_threshold - 1) = carry_threshold - 1 - x :=
      xor_two_pow_sub_one 32 x hx
    have hv := val_lt hxs
    have hB := ct_pos
    have hBM : carry_threshold * carry_threshold ^ xs.length
        = carry_threshold ^ (xs.length + 1) := by rw [pow_succ]; ring
    have hMpos : 0 < carry_threshold ^ xs.length := Nat.pos_pow_of_pos _ hB
    have hdist : carry_threshold * (carry_threshold ^ xs.length - 1 - val xs)
        + carry_threshold * (1 + val xs) = carry_threshold * carry_threshold ^ xs.length := by
      rw [← Nat.mul_add]
      congr 1
      omega
    have hdist2 : carry_threshold * (1 + val xs)
        = carry_threshold + carry_threshold * val xs := by ring
    simp only [bitwise_flip, List.map_cons, val, List.length_cons] at *
    rw [hword, ih hxs]
    omega

theorem ofWide_length (n v : Nat) : (ofWide n v).length = n := by
  simp [ofWide]

theorem ofWide_one : ∀ n : Nat, ofWide n 1 = 1 :: List.replicate (n - 1) 0 ∨ n = 0 := by
  intro n
  cases n with
  | zero => right; rfl
  | succ n =>
    left
    apply List.ext_getElem
    · simp [ofWide]
    · intro i h1 h2
      simp only [ofWide, List.getElem_ofFn]
      have hone : (1 : Nat) % 2 ^ 64 = 1 := by norm_num
      rw [hone]
      cases i with
      | zero =>
        have hmin : 0 < min (64 / word_bits) (n + 1) := by
          simp [word_bits]
        rw [if_pos hmin]
        norm_num [carry_threshold]
      | succ j =>
        simp only [Nat.succ_sub_one, List.getElem_cons_succ, List.getElem_replicate]
        by_cases hj : j + 1 < min (64 / word_bits) (n + 1)
        · rw [if_pos hj]
          have : j = 0 := by
            have : min (64 / word_bits) (n + 1) ≤ 2 := by simp [word_bits]
            omega
          subst this
          norm_num [word_bits, carry_threshold, Nat.shiftRight_eq_div_pow]
        · rw [if_neg hj]

theorem ofWide_one_wf (n : Nat) : wf (ofWide n 1) := by
  rcases ofWide_one n with h | h
  · rw [h]
    intro w hw
    rcases List.mem_cons.mp hw with h1 | h1
    · rw [h1]; exact Nat.one_lt_two_pow_iff.mpr (by norm_num)
    · rw [List.eq_of_mem_replicate h1]; exact ct_pos
  · rw [h]
    intro w hw
    simp [ofWide] at hw

theorem ofWide_one_val (n : Nat) (h : 0 < n) : val (ofWide n 1) = 1 := by
  rcases ofWide_one n with h1 | h1
  · rw [h1]
    simp [val, val_replicate_zero]
  · omega

theorem increment_length (xs : List Nat) : (increment xs).length = xs.length := by
  cases xs with
  | nil => rfl
  | cons x rest =>
    rw [increment]
    split
    · simp
    · rw [add, add_loop_length, ofWide_length]
      simp

theorem increment_wf {xs : List Nat} (h : wf xs) : wf (increment xs) := by
  cases xs with
  | nil => exact h
  | cons x rest =>
    rw [increment]
    obtain ⟨hx, hrest⟩ := wf_cons h
    split
    · intro w hw
      rcases List.mem_cons.mp hw with h1 | h1
      · rw [h1]; omega
      · exact hrest w h1
    · exact add_loop_wf _ _ _

theorem increment_val {xs : List Nat} (h : wf xs) :
    val (increment xs) = (val xs + 1) % carry_threshold ^ xs.length := by
  cases xs with
  | nil => simp [increment, val, Nat.mod_one]
  | cons x rest =>
    obtain ⟨hx, hrest⟩ := wf_cons h
    have hv := val_lt hrest
    have hB := ct_pos
    have hBM : carry_threshold * carry_threshold ^ rest.length
        = carry_threshold ^ (rest.length + 1) := by rw [pow_succ]; ring
    rw [increment]
    split
    case isTrue hfast =>
      have hlt : val (x :: rest) + 1 < carry_threshold ^ (x :: rest).length := by
        simp only [val, List.length_cons]
        have hmul : carry_threshold * val rest + carry_threshold
            ≤ carry_threshold * carry_threshold ^ rest.length := by
          calc carry_threshold * val rest + carry_threshold
              = carry_threshold * (val rest + 1) := by ring
            _ ≤ carry_threshold * carry_threshold ^ rest.length :=
                Nat.mul_le_mul_left carry_threshold (by omega)
        omega
      rw [Nat.mod_eq_of_lt hlt]
      simp only [val]
      omega
    case isFalse hslow =>
      rw [add, add_loop_val _ _ 0 (ofWide_length _ _).symm h (ofWide_one_wf _) (by omega)]
      rw [ofWide_one_val _ (by simp)]

theorem all_ones_add_one (n : Nat) :
    add (List.replicate n (carry_threshold - 1)) (ofWide n 1) = List.replicate n 0 := by
  cases n with
  | zero => rfl
  | succ n =>
    apply val_inj
    · rw [add, add_loop_length, ofWide_length, List.length_replicate, List.length_replicate]
      omega
    · exact add_loop_wf _ _ _
    · exact wf_replicate_zero _
    · rw [add, add_loop_val _ _ 0 (by rw [ofWide_length, List.length_replicate])
        (wf_replicate_allones _) (ofWide_one_wf _) (by omega)]
      rw [val_replicate_allones, ofWide_one_val _ (Nat.succ_pos n), val_replicate_zero,
        List.length_replicate]
      have hM : 0 < carry_threshold ^ (n + 1) := Nat.pos_pow_of_pos _ ct_pos
      have h1 : carry_threshold ^ (n + 1) - 1 + 1 + 0 = carry_threshold ^ (n + 1) := by omega
      rw [h1, Nat.mod_self]

theorem lt_iff_exists : ∀ xs ys : List Nat,
    lt xs ys = true ↔ ∃ i, i < xs.length ∧ i < ys.length ∧ word xs i < word ys i := by
  intro xs
  induction xs with
  | nil =>
    intro ys
    cases ys <;> simp [lt]
  | cons x xs ih =>
    intro ys
    cases ys with
    | nil => simp [lt]
    | cons y ys =>
      rw [lt]
      by_cases h : x < y
      · rw [if_pos h]
        simp only [true_iff]
        exact ⟨0, Nat.succ_pos _, Nat.succ_pos _, h⟩
      · rw [if_neg h, ih ys]
        constructor
        · rintro ⟨i, h1, h2, h3⟩
          exact ⟨i + 1, by simpa using h1, by simpa using h2, by simpa [word_cons_succ] using h3⟩
        · rintro ⟨i, h1, h2, h3⟩
          cases i with
          | zero => exact absurd h3 (by simpa [word_cons_zero] using h)
          | succ i =>
            exact ⟨i, by simpa using h1, by simpa using h2, by simpa [word_cons_succ] using h3⟩

theorem le_iff_exists : ∀ xs ys : List Nat,
    le xs ys = true ↔ ∃ i, i < xs.length ∧ i < ys.length ∧ word xs i ≤ word ys i := by
  intro xs
  induction xs with
  | nil =>
    intro ys
    cases ys <;> simp [le]
  | cons x xs ih =>
    intro ys
    cases ys with
    | nil => simp [le]
    | cons y ys =>
      rw [le]
      by_cases h : x ≤ y
      · rw [if_pos h]
        simp only [true_iff]
        exact ⟨0, Nat.succ_pos _, Nat.succ_pos _, h⟩
      · rw [if_neg h, ih ys]
        constructor
        · rintro ⟨i, h1, h2, h3⟩
          exact ⟨i + 1, by simpa using h1, by simpa using h2, by simpa [word_cons_succ] using h3⟩
        · rintro ⟨i, h1, h2, h3⟩
          cases i with
          | zero => exact absurd h3 (by simpa [word_cons_zero] using h)
          | succ i =>
            exact ⟨i, by simpa using h1, by simpa using h2, by simpa [word_cons_succ] using h3⟩

theorem significant_words_go_replicate_zero (n : Nat) :
    ∀ fuel i, significant_words_go (List.replicate n (0 : Nat)) fuel i = 0 := by
  intro fuel
  induction fuel with
  | zero => intro i; rfl
  | succ fuel ih =>
    intro i
    rw [significant_words_go]
    by_cases hi : i < (List.replicate n (0 : Nat)).length
    · rw [if_pos hi]
      simp only [word_replicate_zero, ne_eq, not_true_eq_false, if_false]
      exact ih (i + 1)
    · rw [if_neg hi]

theorem significant_words_replicate_zero (n : Nat) :
    significant_words (List.replicate n (0 : Nat)) = 0 :=
  significant_words_go_replicate_zero n _ 0

theorem toBool_replicate_zero : ∀ n : Nat, toBool (List.replicate n (0 : Nat)) = false := by
  intro n
  induction n with
  | zero => rfl
  | succ n ih =>
    rw [List.replicate_succ, toBool]
    simpa using ih

/-! ### Claim theorems -/

/-- C1 (amended): `operator<` and `operator<=` scan words from index 0 (the
least-significant word) upward and return `true` at the first word satisfying
the relation — so they hold iff *some* word index satisfies it, which is not
a lexicographic comparison and not numeric ordering: for the two-word values
`x = 2^32` (`[0, 1]`) and `y = 1` (`[1, 0]`), both `x < y` and `x <= y`
return `true` while numerically `x > y`. -/
theorem comparison_scan_semantics_and_numeric_disagreement :
    (∀ xs ys : List Nat,
      lt xs ys = true ↔ ∃ i, i < xs.length ∧ i < ys.length ∧ word xs i < word ys i) ∧
    (∀ xs ys : List Nat,
      le xs ys = true ↔ ∃ i, i < xs.length ∧ i < ys.length ∧ word xs i ≤ word ys i) ∧
    (lt [0, 1] [1, 0] = true ∧ ¬ val [0, 1] < val [1, 0]) ∧
    (le [0, 1] [1, 0] = true ∧ ¬ val [0, 1] ≤ val [1, 0]) :=
  ⟨lt_iff_exists, le_iff_exists, by decide, by decide⟩

/-- C1 counterexample: the claim calls the implemented scan "a lexicographic
comparison over the least-significant-first word order"; at `x = [1, 0]`,
`y = [0, 1]` the lexicographic comparison (first *differing* word decides,
modelled from the spec as `spec_lex_lt`/`spec_lex_le`) answers `false`
while the implemented operators answer `true`. -/
theorem comparison_not_lexicographic_cex :
    lt [1, 0] [0, 1] = true ∧ spec_lex_lt [1, 0] [0, 1] = false ∧
    le [1, 0] [0, 1] = true ∧ spec_lex_le [1, 0] [0, 1] = false := by decide

/-- C2 (failing input): for the `BigUint<64>` values `x = 5 * 2^32`
(words `[0, 5]`) and `y = 2` (words `[2, 0]`), `divide` takes the
`short_divide` path, which leaves the intermediate remainder `1` in the high
word of `rem`; hence `x % y = 2^32` (words `[0, 1]`) instead of `0`, and
`(x / y) * y + (x % y)` is `x + 2^32`, not `x` — the division/remainder
identity of the claim fails on this input. -/
theorem division_identity_failing_input :
    op_div [0, 5] [2, 0] = [2 ^ 31, 2] ∧
    op_mod [0, 5] [2, 0] = [0, 1] ∧
    beq (add (multiply (op_div [0, 5] [2, 0]) [2, 0]) (op_mod [0, 5] [2, 0])) [0, 5] = false ∧
    add (multiply (op_div [0, 5] [2, 0]) [2, 0]) (op_mod [0, 5] [2, 0]) ≠ [0, 5] := by decide

/-- C3 (failing input): for the `BigUint<64>` value `2^32` (words `[0, 1]`)
the highest set bit lies in word `h = 1` at intra-word position `p = 0`, so
the claim demands `significant_bits() = 1 * 32 + 0 + 1 = 33`; the code
multiplies the *loop counter* (0 for the most-significant word) instead of
the word index and returns `1`. -/
theorem significant_bits_failing_input :
    significant_bits [0, 1] = 1 ∧ significant_bits [0, 1] ≠ 1 * word_bits + 0 + 1 := by decide

/-- C4: addition wraps modulo `2^(words * 32)`, the padded storage width:
the value of `add x y` is `(val x + val y) mod 2^(32 * words)` (the final
carry-out into the extra carry slot is dropped), and in particular the
all-ones bit pattern plus 1 is the all-zero value. -/
theorem add_wraps_modulo_padded_width (xs ys : List Nat)
    (hlen : xs.length = ys.length) (hx : wf xs) (hy : wf ys) :
    val (add xs ys) = (val xs + val ys) % 2 ^ (word_bits * xs.length) ∧
    add (List.replicate xs.length (carry_threshold - 1)) (ofWide xs.length 1)
      = List.replicate xs.length 0 := by
  constructor
  · rw [add, add_loop_val xs ys 0 hlen hx hy (by omega), ct_pow, Nat.add_zero]
  · exact all_ones_add_one xs.length

/-- C4 witness: the theorem applied to the two-word values `[5, 7]`, `[3, 9]`. -/
theorem add_wraps_modulo_padded_width_witness :
    val (add [5, 7] [3, 9]) = (val [5, 7] + val [3, 9]) % 2 ^ (word_bits * List.length [5, 7]) ∧
    add (List.replicate (List.length [5, 7]) (carry_threshold - 1))
        (ofWide (List.length [5, 7]) 1) = List.replicate (List.length [5, 7]) 0 :=
  add_wraps_modulo_padded_width [5, 7] [3, 9] rfl (by decide) (by decide)

/-- C5: `(x + y) - y = x` for every pair of same-instantiation values, with
subtraction computed (definitionally in this embedding, second conjunct) as
`x + (~y + 1)` — two's-complement negation of the subtrahend followed by
addition, hence wraparound-consistent with `add`. -/
theorem substract_add_cancel (xs ys : List Nat)
    (hlen : xs.length = ys.length) (hx : wf xs) (hy : wf ys) :
    substract (add xs ys) ys = xs ∧
    substract xs ys = add xs (increment (bitwise_flip ys)) := by
  refine ⟨?_, rfl⟩
  have hB := ct_pos
  have hM : 0 < carry_threshold ^ xs.length := Nat.pos_pow_of_pos _ hB
  have hvx := val_lt hx
  have hvy : val ys < carry_threshold ^ xs.length := by rw [hlen]; exact val_lt hy
  have hlen_add : (add xs ys).length = xs.length := by
    rw [add, add_loop_length]
    omega
  have hwf_add : wf (add xs ys) := add_loop_wf _ _ _
  have hflip_len : (bitwise_flip ys).length = xs.length := by
    rw [bitwise_flip_length]
    omega
  have hflip_wf : wf (bitwise_flip ys) := bitwise_flip_wf hy
  have hinc_len : (increment (bitwise_flip ys)).length = xs.length := by
    rw [increment_length]
    exact hflip_len
  have hinc_wf : wf (increment (bitwise_flip ys)) := increment_wf hflip_wf
  have hv_add : val (add xs ys) = (val xs + val ys) % carry_threshold ^ xs.length := by
    rw [add, add_loop_val xs ys 0 hlen hx hy (by omega), Nat.add_zero]
  have hv_flip : val (bitwise_flip ys) = carry_threshold ^ xs.length - 1 - val ys := by
    rw [bitwise_flip_val ys hy, ← hlen]
  have hv_inc : val (increment (bitwise_flip ys))
      = (carry_threshold ^ xs.length - val ys) % carry_threshold ^ xs.length := by
    rw [increment_val hflip_wf, hflip_len, hv_flip]
    congr 1
    omega
  apply val_inj
  · rw [substract, add, add_loop_length, hlen_add, hinc_len]
    omega
  · exact add_loop_wf _ _ _
  · exact hx
  · rw [substract, add,
      add_loop_val _ _ 0 (by rw [hlen_add, hinc_len]) hwf_add hinc_wf (by omega),
      hlen_add, hv_add, hv_inc, Nat.add_zero, ← Nat.add_mod]
    have harg : val xs + val ys + (carry_threshold ^ xs.length - val ys)
        = val xs + carry_threshold ^ xs.length := by omega
    rw [harg, Nat.add_mod_right]
    exact Nat.mod_eq_of_lt hvx

/-- C5 witness: the theorem applied to the two-word values `[3, 7]`, `[5, 9]`. -/
theorem substract_add_cancel_witness :
    substract (add [3, 7] [5, 9]) [5, 9] = [3, 7] ∧
    substract [3, 7] [5, 9] = add [3, 7] (increment (bitwise_flip [5, 9])) :=
  substract_add_cancel [3, 7] [5, 9] rfl (by decide) (by decide)

/-- C6 (amended): constructing the 8-bit-wide `BigUint` (one 32-bit storage
word) from the literal bit-string `"00010011"` and calling `to_string()` in
non-pretty mode returns the bracketed, storage-padded 32-character pattern
`"[00000000000000000000000000010011]"` (most-significant bit first) — not
the bare 8-character string `"00010011"`: `to_string` prints all
`words * 32` storage bits and always emits the surrounding brackets. -/
theorem literal_to_string_bracketed_padded :
    to_string (ofLiteral 1 8 "00010011") = "[00000000000000000000000000010011]" := by decide

/-- C6 counterexample: the result of the round trip is not the string
`"00010011"` the claim demands. -/
theorem literal_to_string_cex :
    to_string (ofLiteral 1 8 "00010011") ≠ "00010011" := by decide

/-- C7: for both shift directions, shifting by at least the total (padded)
bit width `words * 32` yields the all-zero value, and shifting by 0 returns
the value unchanged. -/
theorem shift_boundary_and_zero (xs : List Nat) (shift : Nat)
    (h : word_bits * xs.length ≤ shift) :
    bitwise_lshift xs shift = List.replicate xs.length 0 ∧
    bitwise_rshift xs shift = List.replicate xs.length 0 ∧
    bitwise_lshift xs 0 = xs ∧ bitwise_rshift xs 0 = xs := by
  refine ⟨?_, ?_, by rw [bitwise_lshift]; simp, by rw [bitwise_rshift]; simp⟩
  · by_cases hs : shift = 0
    · subst hs
      unfold word_bits at h
      obtain rfl := List.length_eq_zero.mp (by omega : xs.length = 0)
      rfl
    · rw [bitwise_lshift, if_neg hs, if_pos h]
  · by_cases hs : shift = 0
    · subst hs
      unfold word_bits at h
      obtain rfl := List.length_eq_zero.mp (by omega : xs.length = 0)
      rfl
    · rw [bitwise_rshift, if_neg hs, if_pos h]

/-- C7 witness: the theorem applied to the two-word value `[3, 4]` with
shift 64 (= the padded width). -/
theorem shift_boundary_and_zero_witness :
    bitwise_lshift [3, 4] 64 = List.replicate (List.length [3, 4]) 0 ∧
    bitwise_rshift [3, 4] 64 = List.replicate (List.length [3, 4]) 0 ∧
    bitwise_lshift [3, 4] 0 = [3, 4] ∧ bitwise_rshift [3, 4] 0 = [3, 4] :=
  shift_boundary_and_zero [3, 4] 64 (by decide)

/-- C8: for the 8-bit value 19 (`00010011`), the rotates composed from the
two directional shifts as `(x << s) | (x >> (width - s))` give
`rotl(19, 6) = 196` and `rotr(19, 1) = 137` — in both the `bits::` versions
of `integral.hpp` and the `bit::` versions of `bit.hpp` (whose directional
shifts themselves give `lshift(19, 6) = 192` and `rshift(19, 1) = 9`). -/
theorem rotate_values_u8 :
    rotl_u8 19 6 = 196 ∧ rotr_u8 19 1 = 137 ∧
    bit_rotl_u8 19 6 = 196 ∧ bit_rotr_u8 19 1 = 137 ∧
    bit_lshift_u8 19 6 = 192 ∧ bit_rshift_u8 19 1 = 9 := by decide

/-- C9 (amended): dividing by the zero value reaches the debug assertion
(`assert(y)` in `long_divide`) only when the dividend has at least two
significant words; when the dividend has at most one significant word the
dispatcher's fast path performs the native `x.word(0) / y.word(0)` division
by zero with no assertion guarding it (undefined behavior).  `short_divide`
likewise contains no assertion, but is unreachable with a zero divisor.  No
exception is thrown on any path. -/
theorem divide_by_zero_assert_only_on_long_path (xs : List Nat) :
    divide_outcome xs (List.replicate xs.length 0) =
      if significant_words xs ≤ 1 then DivOutcome.ub else DivOutcome.assertFail := by
  unfold divide_outcome
  simp only [significant_words_replicate_zero, word_replicate_zero, toBool_replicate_zero,
    Nat.zero_le, and_true]
  by_cases hx : significant_words xs ≤ 1
  · simp [hx]
  · simp [hx]

/-- C9 counterexample: at the single-significant-word dividend `[5, 0]` and
the zero divisor, the outcome is native division by zero (`ub`), not the
assertion failure the claim requires on every path. -/
theorem divide_by_zero_fast_path_cex :
    divide_outcome [5, 0] [0, 0] = DivOutcome.ub ∧
    DivOutcome.ub ≠ DivOutcome.assertFail := by decide

/-- C10: every non-assigning operator (`+ - * / % & | ^ << >> ~`) and every
comparison operator builds its result from a copy and takes its operands
const-qualified; the operand states after each call equal the operand states
before it. -/
theorem operators_preserve_operands (x y : List Nat) (shift : Nat) :
    (call_flip x).2 = x ∧
    (call_lshift x shift).2 = x ∧ (call_rshift x shift).2 = x ∧
    (call_and x y).2 = (x, y) ∧ (call_or x y).2 = (x, y) ∧ (call_xor x y).2 = (x, y) ∧
    (call_add x y).2 = (x, y) ∧ (call_sub x y).2 = (x, y) ∧ (call_mul x y).2 = (x, y) ∧
    (call_div x y).2 = (x, y) ∧ (call_mod x y).2 = (x, y) ∧
    (call_eq x y).2 = (x, y) ∧ (call_ne x y).2 = (x, y) ∧
    (call_lt x y).2 = (x, y) ∧ (call_le x y).2 = (x, y) ∧
    (call_gt x y).2 = (x, y) ∧ (call_ge x y).2 = (x, y) :=
  ⟨rfl, rfl, rfl, rfl, rfl, rfl, rfl, rfl, rfl, rfl, rfl, rfl, rfl, rfl, rfl, rfl, rfl⟩

end UTL
